import Mathlib

/-!
Verification of the goolm cryptographic core of mautrix-go: the AESSHA256
cipher (HKDF key derivation, AES-CBC encryption, truncated HMAC
verification), Curve25519 key pairs with X25519 key agreement, and the
libolm-compatible fixed-layout pickle codec for key pairs and one-time keys.

Bytes are modelled as natural numbers and byte slices as lists.  Go's
fallible functions return `Except GoErr`; `GoOutcome` additionally
distinguishes a runtime panic (out-of-range slice expression) from an
ordinary returned error.
-/

namespace Goolm

/-- Error values returned by the modelled Go functions. -/
inductive GoErr where
  | shortRead
  | invalidKeySize
  | invalidBlockSize
  | invalidPadding
  | inputTooShort
  | badScalarLength
  | badPointLength
  | lowOrderPoint
  deriving DecidableEq

/-- Result of a Go call that can also panic at runtime (as opposed to
returning an error value): `panicked` models a Go panic such as an
out-of-range slice expression. -/
inductive GoOutcome (α : Type) where
  | ok (val : α)
  | goError (e : GoErr)
  | panicked
  deriving DecidableEq

/-- Model of Go `bytes.Equal`: true iff the two byte slices have the same
length and contents. -/
def bytesEqual (a b : List Nat) : Bool := a == b

/-- Big-endian 4-byte encoding of a 32-bit value, as written by
`binary.BigEndian.PutUint32`. -/
def be32encode (v : Nat) : List Nat :=
  [v / 16777216 % 256, v / 65536 % 256, v / 256 % 256, v % 256]

/-- Big-endian decoding of a 4-byte slice, as read by
`binary.BigEndian.Uint32`. -/
def be32decode (l : List Nat) : Nat :=
  l.foldl (fun acc b => acc * 256 + b) 0

theorem be32_roundtrip (v : Nat) (h : v < 4294967296) :
    be32decode (be32encode v) = v := by
  simp only [be32decode, be32encode, List.foldl]
  omega

/- ---------------------------------------------------------------------
libolmpickle codec (package libolmpickle of this repository; its source is
not under src/, only its callers are, so it is modelled from the spec).
The encoder is modelled as the accumulated list of bytes written so far.
--------------------------------------------------------------------- -/

/-- Modelled from the spec: libolmpickle `Encoder.Write` — the pickle sink
appends its fixed-width fields to an accumulating byte sink. -/
def encoderWrite (acc bytes : List Nat) : List Nat := acc ++ bytes

/-- Modelled from the spec: libolmpickle `Encoder.WriteEmptyBytes` —
optional/absent fields are zero-filled to their nominal width. -/
def encoderWriteEmptyBytes (acc : List Nat) (n : Nat) : List Nat :=
  acc ++ List.replicate n 0

/-- Modelled from the spec: libolmpickle `Encoder.WriteUInt32` — a one-time
key id is encoded as 4 bytes, big-endian. -/
def encoderWriteUInt32 (acc : List Nat) (v : Nat) : List Nat :=
  acc ++ be32encode v

/-- Modelled from the spec: libolmpickle `Encoder.WriteBool` — a boolean is
encoded as a single byte, 1 for true and 0 for false. -/
def encoderWriteBool (acc : List Nat) (b : Bool) : List Nat :=
  acc ++ [if b then 1 else 0]

/-- Modelled from the spec: libolmpickle `UnpickleBytes` — reads exactly
`n` bytes from the front of the buffer, failing with a truncated-input
error if fewer bytes remain; returns the bytes and the count consumed. -/
def UnpickleBytes (value : List Nat) (n : Nat) : Except GoErr (List Nat × Nat) :=
  if value.length < n then .error .inputTooShort else .ok (value.take n, n)

/-- Modelled from the spec: libolmpickle `UnpickleUInt32` — reads a 4-byte
big-endian value, failing with a truncated-input error on short input. -/
def UnpickleUInt32 (value : List Nat) : Except GoErr (Nat × Nat) :=
  if value.length < 4 then .error .inputTooShort
  else .ok (be32decode (value.take 4), 4)

/-- Modelled from the spec: libolmpickle `UnpickleBool` — reads one byte,
interpreting any non-zero byte as true. -/
def UnpickleBool (value : List Nat) : Except GoErr (Bool × Nat) :=
  match value with
  | [] => .error .inputTooShort
  | b :: _ => .ok (decide (b ≠ 0), 1)

/- ---------------------------------------------------------------------
Curve25519 key pair pickling (src/unnamed/part_001, package crypto).
--------------------------------------------------------------------- -/

def Curve25519PrivateKeyLength : Nat := 32

def Curve25519PublicKeyLength : Nat := 32

/-- `Curve25519PrivateKey` is a raw byte slice. -/
abbrev Curve25519PrivateKey := List Nat

/-- `Curve25519PublicKey` is a raw byte slice. -/
abbrev Curve25519PublicKey := List Nat

/-- `Curve25519PrivateKey.Equal`: byte equality of private keys. -/
def Curve25519PrivateKey.Equal (c x : Curve25519PrivateKey) : Bool :=
  bytesEqual c x

/-- `Curve25519PublicKey.Equal`: byte equality of public keys. -/
def Curve25519PublicKey.Equal (c x : Curve25519PublicKey) : Bool :=
  bytesEqual c x

/-- `Curve25519KeyPair` stores both halves of a curve25519 key. -/
structure Curve25519KeyPair where
  PrivateKey : Curve25519PrivateKey
  PublicKey : Curve25519PublicKey
  deriving DecidableEq

/-- `Curve25519PublicKey.PickleLibOlm`: writes the 32 public-key bytes, or
32 zero bytes when the field is not exactly 32 bytes long. -/
def Curve25519PublicKey.PickleLibOlm (c : Curve25519PublicKey) (acc : List Nat) : List Nat :=
  if c.length = Curve25519PublicKeyLength then encoderWrite acc c
  else encoderWriteEmptyBytes acc Curve25519PublicKeyLength

/-- `Curve25519KeyPair.PickleLibOlm`: pickles the public key, then the
private key (zero-filled when not exactly 32 bytes long). -/
def Curve25519KeyPair.PickleLibOlm (c : Curve25519KeyPair) (acc : List Nat) : List Nat :=
  let acc2 := Curve25519PublicKey.PickleLibOlm c.PublicKey acc
  if c.PrivateKey.length = Curve25519PrivateKeyLength then encoderWrite acc2 c.PrivateKey
  else encoderWriteEmptyBytes acc2 Curve25519PrivateKeyLength

/-- `Curve25519PublicKey.UnpickleLibOlm`: reads the 32 public-key bytes. -/
def Curve25519PublicKey.UnpickleLibOlm (value : List Nat) :
    Except GoErr (Curve25519PublicKey × Nat) :=
  UnpickleBytes value Curve25519PublicKeyLength

/-- `Curve25519KeyPair.UnpickleLibOlm`: reads the public key then the
private key; the private-key field is always set to the 32 bytes read. -/
def Curve25519KeyPair.UnpickleLibOlm (value : List Nat) :
    Except GoErr (Curve25519KeyPair × Nat) :=
  match Curve25519PublicKey.UnpickleLibOlm value with
  | .error e => .error e
  | .ok (pub, read) =>
    match UnpickleBytes (value.drop read) Curve25519PrivateKeyLength with
    | .error e => .error e
    | .ok (privKey, readPriv) =>
      .ok ({ PrivateKey := privKey, PublicKey := pub }, read + readPriv)

/- ---------------------------------------------------------------------
One-time keys (src/crypto/goolm/crypto/one_time_key.go).
--------------------------------------------------------------------- -/

/-- `OneTimeKey` stores the information about a one-time key.  `ID` is a
Go `uint32`, modelled as a natural number below `2^32`. -/
structure OneTimeKey where
  ID : Nat
  Published : Bool
  Key : Curve25519KeyPair
  deriving DecidableEq

/-- `OneTimeKey.Equal`: field-wise comparison of id, published flag and
both halves of the embedded key pair. -/
def OneTimeKey.Equal (otk s : OneTimeKey) : Bool :=
  otk.ID == s.ID && otk.Published == s.Published &&
    Curve25519PrivateKey.Equal otk.Key.PrivateKey s.Key.PrivateKey &&
    Curve25519PublicKey.Equal otk.Key.PublicKey s.Key.PublicKey

/-- `OneTimeKey.PickleLibOlm`: writes the id (4 bytes big-endian), the
published flag (1 byte), then the embedded key pair (64 bytes). -/
def OneTimeKey.PickleLibOlm (c : OneTimeKey) (acc : List Nat) : List Nat :=
  Curve25519KeyPair.PickleLibOlm c.Key
    (encoderWriteBool (encoderWriteUInt32 acc c.ID) c.Published)

/-- `OneTimeKey.UnpickleLibOlm`: reads the id, the published flag and the
key pair in order, returning the total number of bytes consumed. -/
def OneTimeKey.UnpickleLibOlm (value : List Nat) : Except GoErr (OneTimeKey × Nat) :=
  match UnpickleUInt32 value with
  | .error e => .error e
  | .ok (keyId, readBytes) =>
    match UnpickleBool (value.drop readBytes) with
    | .error e => .error e
    | .ok (published, readBytes2) =>
      match Curve25519KeyPair.UnpickleLibOlm (value.drop (readBytes + readBytes2)) with
      | .error e => .error e
      | .ok (key, readBytes3) =>
        .ok ({ ID := keyId, Published := published, Key := key },
          readBytes + readBytes2 + readBytes3)

/- ---------------------------------------------------------------------
AESSHA256 cipher (src/unnamed/part_001, package cipher).  The HKDF-SHA256
and HMAC-SHA256 primitives live in the goolm crypto package, which is not
under src/; following the spec (which treats them as standard building
blocks) they are abstracted as function parameters: `hkdf ikm salt info`
is the pseudorandom output stream of HKDF-SHA256 and `hmac key message`
the 32-byte HMAC-SHA256 tag.
--------------------------------------------------------------------- -/

/-- Model of Go `io.ReadFull`: reads exactly `n` bytes from the stream,
failing when the stream is shorter. -/
def readFull (n : Nat) (stream : List Nat) : Except GoErr (List Nat) :=
  if n ≤ stream.length then .ok (stream.take n) else .error .shortRead

/-- `derivedAESKeys` stores the derived keys for the AESSHA256 cipher. -/
structure derivedAESKeys where
  key : List Nat
  hmacKey : List Nat
  iv : List Nat
  deriving DecidableEq

/-- `deriveAESKeys` derives the three keys for the AESSHA256 cipher: it
reads an 80-byte key matter from HKDF-SHA256 applied to the master secret
with a nil salt (`none`) and the kdf-info context, and slices it into the
cipher key (bytes 0-31), the HMAC key (bytes 32-63) and the IV (bytes
64-79).  In Go a read error is returned alongside the struct; callers use
the struct only when the error is nil, so the model returns `Except`. -/
def deriveAESKeys (hkdf : List Nat → Option (List Nat) → List Nat → List Nat)
    (kdfInfo key : List Nat) : Except GoErr derivedAESKeys :=
  match readFull 80 (hkdf key none kdfInfo) with
  | .error e => .error e
  | .ok keymatter =>
    .ok ⟨keymatter.take 32, (keymatter.drop 32).take 32, keymatter.drop 64⟩

/-- Modelled from the spec: aescbc PKCS#7-style reversible padding (the
aescbc package of this repository is not under src/) — the plaintext is
padded to the cipher block size of 16. -/
def pkcs7pad (p : List Nat) : List Nat :=
  p ++ List.replicate (16 - p.length % 16) (16 - p.length % 16)

/-- Modelled from the spec: aescbc PKCS#7-style unpadding; fails with a
decryption error on invalid padding. -/
def pkcs7unpad (l : List Nat) : Except GoErr (List Nat) :=
  match l.getLast? with
  | none => .error .invalidPadding
  | some k =>
    if 1 ≤ k ∧ k ≤ 16 ∧ k ≤ l.length ∧
        (l.drop (l.length - k)).all (fun b => b == k)
    then .ok (l.take (l.length - k))
    else .error .invalidPadding

/-- Byte-wise XOR of two equal-length byte slices (CBC chaining). -/
def zipXor (a b : List Nat) : List Nat := List.zipWith (fun x y => x ^^^ y) a b

def chunksAux : Nat → List Nat → List (List Nat)
  | 0, _ => []
  | fuel + 1, l => if l = [] then [] else l.take 16 :: chunksAux fuel (l.drop 16)

/-- Splits a byte slice into consecutive 16-byte cipher blocks. -/
def chunks (l : List Nat) : List (List Nat) := chunksAux l.length l

/-- CBC-mode encryption over a list of 16-byte blocks: each plaintext
block is XORed with the previous ciphertext block (the IV for the first)
before being passed through the block cipher. -/
def cbcEncBlocks (encB : List Nat → List Nat) :
    List Nat → List (List Nat) → List (List Nat)
  | _, [] => []
  | prev, b :: bs =>
    let c := encB (zipXor prev b)
    c :: cbcEncBlocks encB c bs

/-- CBC-mode decryption over a list of 16-byte ciphertext blocks. -/
def cbcDecBlocks (decB : List Nat → List Nat) :
    List Nat → List (List Nat) → List (List Nat)
  | _, [] => []
  | prev, c :: cs => zipXor prev (decB c) :: cbcDecBlocks decB c cs

/-- Modelled from the spec: `aescbc.Encrypt` (not under src/) — AES-CBC
encryption with PKCS#7 padding; fails on a malformed key length.  The AES
block permutation is the parameter `encB key block`. -/
def aescbcEncrypt (encB : List Nat → List Nat → List Nat)
    (key iv plaintext : List Nat) : Except GoErr (List Nat) :=
  if ¬ (key.length = 16 ∨ key.length = 24 ∨ key.length = 32) then
    .error .invalidKeySize
  else if iv.length ≠ 16 then .error .invalidBlockSize
  else .ok (cbcEncBlocks (encB key) iv (chunks (pkcs7pad plaintext))).flatten

/-- Modelled from the spec: `aescbc.Decrypt` (not under src/) — fails on a
malformed key length, a ciphertext length that is not a multiple of the
block size, or invalid padding. -/
def aescbcDecrypt (decB : List Nat → List Nat → List Nat)
    (key iv ciphertext : List Nat) : Except GoErr (List Nat) :=
  if ¬ (key.length = 16 ∨ key.length = 24 ∨ key.length = 32) then
    .error .invalidKeySize
  else if iv.length ≠ 16 then .error .invalidBlockSize
  else if ¬ (16 ∣ ciphertext.length) then .error .invalidBlockSize
  else pkcs7unpad (cbcDecBlocks (decB key) iv (chunks ciphertext)).flatten

/-- `AESSHA256` is a cipher using AES with CBC and HKDF-SHA256, holding
the immutable key-derivation info set at construction time. -/
structure AESSHA256 where
  kdfInfo : List Nat

/-- `AESSHA256.Encrypt`: derives the keys from the master secret and
encrypts with AES-CBC under the derived key and IV. -/
def AESSHA256.Encrypt (hkdf : List Nat → Option (List Nat) → List Nat → List Nat)
    (encB : List Nat → List Nat → List Nat) (c : AESSHA256)
    (key plaintext : List Nat) : Except GoErr (List Nat) :=
  match deriveAESKeys hkdf c.kdfInfo key with
  | .error e => .error e
  | .ok keys => aescbcEncrypt encB keys.key keys.iv plaintext

/-- `AESSHA256.Decrypt`: derives the keys from the master secret and
decrypts with AES-CBC under the derived key and IV. -/
def AESSHA256.Decrypt (hkdf : List Nat → Option (List Nat) → List Nat → List Nat)
    (decB : List Nat → List Nat → List Nat) (c : AESSHA256)
    (key ciphertext : List Nat) : Except GoErr (List Nat) :=
  match deriveAESKeys hkdf c.kdfInfo key with
  | .error e => .error e
  | .ok keys => aescbcDecrypt decB keys.key keys.iv ciphertext

/-- `AESSHA256.MAC`: derives the keys and returns the HMAC-SHA256 tag of
the message under the derived MAC key. -/
def AESSHA256.MAC (hkdf : List Nat → Option (List Nat) → List Nat → List Nat)
    (hmac : List Nat → List Nat → List Nat) (c : AESSHA256)
    (key message : List Nat) : Except GoErr (List Nat) :=
  match deriveAESKeys hkdf c.kdfInfo key with
  | .error e => .error e
  | .ok keys => .ok (hmac keys.hmacKey message)

/-- `AESSHA256.Verify`: recomputes the MAC and compares the given tag with
`bytes.Equal(givenMAC, mac[:len(givenMAC)])`.  The Go slice expression
`mac[:len(givenMAC)]` panics when the given tag is longer than the
recomputed 32-byte tag, which the model renders as `.panicked`. -/
def AESSHA256.Verify (hkdf : List Nat → Option (List Nat) → List Nat → List Nat)
    (hmac : List Nat → List Nat → List Nat) (c : AESSHA256)
    (key message givenMAC : List Nat) : GoOutcome Bool :=
  match AESSHA256.MAC hkdf hmac c key message with
  | .error e => .goError e
  | .ok mac =>
    if givenMAC.length ≤ mac.length then
      .ok (bytesEqual givenMAC (mac.take givenMAC.length))
    else .panicked

/- ---------------------------------------------------------------------
Curve25519 key agreement.  `Curve25519PrivateKey.SharedSecret` (in src)
delegates to `curve25519.X25519` of golang.org/x/crypto, which computes
the RFC 7748 X25519 function and returns an error when the computed
shared secret is all zeros (its low-order-point rejection).  The field
arithmetic below is over GF(2^255 - 19) with naturals reduced modulo the
prime; exponentiation and byte encoding use structural fuel so that all
definitions evaluate inside the kernel.
--------------------------------------------------------------------- -/

def p25519 : Nat := 2 ^ 255 - 19

def a24 : Nat := 121665

def fadd (a b : Nat) : Nat := (a + b) % p25519

def fsub (a b : Nat) : Nat := (a % p25519 + (p25519 - b % p25519)) % p25519

def fmul (a b : Nat) : Nat := a * b % p25519

def fpowAux : Nat → Nat → Nat → Nat
  | 0, _, _ => 1
  | fuel + 1, a, n =>
    if n = 0 then 1
    else
      let r := fpowAux fuel (a * a % p25519) (n / 2)
      if n % 2 = 1 then a * r % p25519 else r

def fpow (a n : Nat) : Nat := fpowAux 256 a n

/-- Field inversion via Fermat: `a^(p-2) mod p`. -/
def finv (a : Nat) : Nat := fpow a (p25519 - 2)

/-- Little-endian interpretation of a byte slice. -/
def decodeLittleEndian (l : List Nat) : Nat :=
  l.foldr (fun b acc => b % 256 + 256 * acc) 0

/-- RFC 7748 u-coordinate decoding: mask the most significant bit of the
final byte (keep bits 0-254). -/
def decodeUCoordinate (l : List Nat) : Nat :=
  decodeLittleEndian l % 2 ^ 255

/-- RFC 7748 scalar decoding (clamping): clear the three lowest bits and
bit 255, set bit 254. -/
def clampScalar (l : List Nat) : Nat :=
  decodeLittleEndian l / 8 * 8 % 2 ^ 254 + 2 ^ 254

def encodeUCoordinateAux : Nat → Nat → List Nat
  | 0, _ => []
  | fuel + 1, x => x % 256 :: encodeUCoordinateAux fuel (x / 256)

/-- 32-byte little-endian encoding of a field element. -/
def encodeUCoordinate (x : Nat) : List Nat := encodeUCoordinateAux 32 (x % p25519)

/-- One step of the RFC 7748 §5 Montgomery ladder at bit index `t`; the
state is `(x2, z2, x3, z3, swap)`. -/
def ladderStep (k x1 : Nat) (st : Nat × Nat × Nat × Nat × Nat) (t : Nat) :
    Nat × Nat × Nat × Nat × Nat :=
  let (x2, z2, x3, z3, swap) := st
  let kt := k / 2 ^ t % 2
  let swap2 := swap ^^^ kt
  let x2s := if swap2 = 1 then x3 else x2
  let x3s := if swap2 = 1 then x2 else x3
  let z2s := if swap2 = 1 then z3 else z2
  let z3s := if swap2 = 1 then z2 else z3
  let A := fadd x2s z2s
  let AA := fmul A A
  let B := fsub x2s z2s
  let BB := fmul B B
  let E := fsub AA BB
  let C := fadd x3s z3s
  let D := fsub x3s z3s
  let DA := fmul D A
  let CB := fmul C B
  (fmul AA BB, fmul E (fadd AA (fmul a24 E)),
   fmul (fadd DA CB) (fadd DA CB), fmul x1 (fmul (fsub DA CB) (fsub DA CB)),
   kt)

/-- The RFC 7748 X25519 scalar-multiplication ladder over bits 254..0. -/
def montgomeryLadder (k u : Nat) : Nat :=
  let fin := (List.range 255).reverse.foldl (ladderStep k u) (1, 0, u % p25519, 1, 0)
  let x2 := if fin.2.2.2.2 = 1 then fin.2.2.1 else fin.1
  let z2 := if fin.2.2.2.2 = 1 then fin.2.2.2.1 else fin.2.1
  fmul x2 (finv z2)

/-- `curve25519.X25519` of golang.org/x/crypto: checks both input lengths,
computes the RFC 7748 function, and rejects a low-order input point by
returning an error when the output is all zeros. -/
def curve25519X25519 (scalar point : List Nat) : Except GoErr (List Nat) :=
  if scalar.length ≠ 32 then .error .badScalarLength
  else if point.length ≠ 32 then .error .badPointLength
  else
    let out := encodeUCoordinate
      (montgomeryLadder (clampScalar scalar) (decodeUCoordinate point))
    if out.all (fun b => b == 0) then .error .lowOrderPoint
    else .ok out

/-- `Curve25519PrivateKey.SharedSecret` (src): `curve25519.X25519(c, pubKey)`. -/
def Curve25519PrivateKey.SharedSecret (c : Curve25519PrivateKey)
    (pubKey : Curve25519PublicKey) : Except GoErr (List Nat) :=
  curve25519X25519 c pubKey

/-- `Curve25519KeyPair.SharedSecret` (src): delegates to the private key. -/
def Curve25519KeyPair.SharedSecret (c : Curve25519KeyPair)
    (pubKey : Curve25519PublicKey) : Except GoErr (List Nat) :=
  Curve25519PrivateKey.SharedSecret c.PrivateKey pubKey

/-- The standard X25519 base point encoding (u = 9). -/
def basepointBytes : List Nat := 9 :: List.replicate 31 0

/-- Modelled from the spec: X25519 as Diffie-Hellman scalar multiplication
on the x-line of the curve — `smul` is the scalar action on x-only curve
points, `enc`/`dec` translate between points and their 32-byte encodings;
the length checks and all-zero-output rejection mirror
`curve25519X25519`.  Used to state shared-secret symmetry, which holds
for any scalar action satisfying the composition law. -/
def x25519Spec {α : Type} (smul : Nat → α → α) (enc : α → List Nat)
    (dec : List Nat → α) (scalar point : List Nat) : Except GoErr (List Nat) :=
  if scalar.length ≠ 32 then .error .badScalarLength
  else if point.length ≠ 32 then .error .badPointLength
  else
    let out := enc (smul (clampScalar scalar) (dec point))
    if out.all (fun b => b == 0) then .error .lowOrderPoint
    else .ok out

/- ---------------------------------------------------------------------
Theorems about the pickle layer.
--------------------------------------------------------------------- -/

theorem keypair_unpickle_of_append (pub priv rest : List Nat)
    (hpub : pub.length = 32) (hpriv : priv.length = 32) :
    Curve25519KeyPair.UnpickleLibOlm (pub ++ (priv ++ rest)) =
      .ok (⟨priv, pub⟩, 64) := by
  have hlen : (pub ++ (priv ++ rest)).length = 64 + rest.length := by
    simp [hpub, hpriv]; omega
  have hlen2 : (priv ++ rest).length = 32 + rest.length := by simp [hpriv]
  have ht1 : (pub ++ (priv ++ rest)).take 32 = pub := List.take_left' hpub
  have hd1 : (pub ++ (priv ++ rest)).drop 32 = priv ++ rest := List.drop_left' hpub
  have ht2 : (priv ++ rest).take 32 = priv := List.take_left' hpriv
  have hif1 : ¬ (64 + rest.length < 32) := by omega
  have hif2 : ¬ (32 + rest.length < 32) := by omega
  simp [Curve25519KeyPair.UnpickleLibOlm, Curve25519PublicKey.UnpickleLibOlm,
    UnpickleBytes, Curve25519PublicKeyLength, Curve25519PrivateKeyLength,
    hlen, hlen2, ht1, hd1, ht2, hif1, hif2]

/-- C2: `Curve25519KeyPair.PickleLibOlm` appends exactly 64 bytes — 32
bytes of public key followed by 32 bytes of private key, each half
zero-filled when its field is not exactly 32 bytes long — so the emitted
length is the same whether or not the private key is populated. -/
theorem keypair_pickle_layout (c : Curve25519KeyPair) (acc : List Nat) :
    Curve25519KeyPair.PickleLibOlm c acc =
      acc ++ ((if c.PublicKey.length = 32 then c.PublicKey else List.replicate 32 0) ++
        (if c.PrivateKey.length = 32 then c.PrivateKey else List.replicate 32 0)) ∧
    (Curve25519KeyPair.PickleLibOlm c acc).length = acc.length + 64 := by
  simp only [Curve25519KeyPair.PickleLibOlm, Curve25519PublicKey.PickleLibOlm,
    encoderWrite, encoderWriteEmptyBytes, Curve25519PublicKeyLength,
    Curve25519PrivateKeyLength]
  constructor
  · split <;> split <;> simp
  · split <;> split <;> simp_all

theorem be32encode_length (v : Nat) : (be32encode v).length = 4 := by
  simp [be32encode]

/-- C3: a one-time key whose embedded key pair has both 32-byte halves
present round-trips through `PickleLibOlm`/`UnpickleLibOlm`, reconstructing
an `Equal` record and consuming exactly 69 = 4 + 1 + 64 bytes. -/
theorem onetimekey_pickle_roundtrip (otk : OneTimeKey)
    (hid : otk.ID < 4294967296)
    (hpriv : otk.Key.PrivateKey.length = 32)
    (hpub : otk.Key.PublicKey.length = 32) :
    OneTimeKey.UnpickleLibOlm (OneTimeKey.PickleLibOlm otk []) = .ok (otk, 69) ∧
    OneTimeKey.Equal otk otk = true := by
  constructor
  · obtain ⟨keyId, published, kp⟩ := otk
    obtain ⟨priv, pub⟩ := kp
    simp only at hid hpriv hpub
    have hpickle : OneTimeKey.PickleLibOlm ⟨keyId, published, ⟨priv, pub⟩⟩ [] =
        be32encode keyId ++ ((if published then 1 else 0) :: (pub ++ priv)) := by
      simp [OneTimeKey.PickleLibOlm, Curve25519KeyPair.PickleLibOlm,
        Curve25519PublicKey.PickleLibOlm, encoderWrite, encoderWriteBool,
        encoderWriteUInt32, Curve25519PublicKeyLength, Curve25519PrivateKeyLength,
        hpriv, hpub]
    set bb : Nat := if published then 1 else 0 with hbb
    have h4 : (be32encode keyId).length = 4 := be32encode_length keyId
    have hlenAll : (be32encode keyId ++ (bb :: (pub ++ priv))).length = 69 := by
      simp [h4, hpub, hpriv]
    have hd4 : (be32encode keyId ++ (bb :: (pub ++ priv))).drop 4 =
        bb :: (pub ++ priv) := List.drop_left' h4
    have ht4 : (be32encode keyId ++ (bb :: (pub ++ priv))).take 4 =
        be32encode keyId := List.take_left' h4
    have hd5 : (be32encode keyId ++ (bb :: (pub ++ priv))).drop 5 =
        pub ++ priv := by
      have h15 : ((be32encode keyId ++ (bb :: (pub ++ priv))).drop 4).drop 1 =
          (be32encode keyId ++ (bb :: (pub ++ priv))).drop 5 := by
        rw [List.drop_drop]
      rw [← h15, hd4, List.drop_succ_cons, List.drop_zero]
    have hbool : decide (bb ≠ 0) = published := by
      rw [hbb]; cases published <;> simp
    have hkp : Curve25519KeyPair.UnpickleLibOlm (pub ++ priv) =
        .ok (⟨priv, pub⟩, 64) := by
      have h := keypair_unpickle_of_append pub priv [] hpub hpriv
      simpa using h
    rw [hpickle]
    simp [OneTimeKey.UnpickleLibOlm, UnpickleUInt32, UnpickleBool, hlenAll,
      ht4, hd4, hd5, hbool, hkp, be32_roundtrip keyId hid]
  · simp [OneTimeKey.Equal, Curve25519PrivateKey.Equal, Curve25519PublicKey.Equal,
      bytesEqual]

theorem c3_witness :
    OneTimeKey.UnpickleLibOlm (OneTimeKey.PickleLibOlm
      ⟨1, false, ⟨List.replicate 32 2, List.replicate 32 3⟩⟩ []) =
      .ok (⟨1, false, ⟨List.replicate 32 2, List.replicate 32 3⟩⟩, 69) ∧
    OneTimeKey.Equal ⟨1, false, ⟨List.replicate 32 2, List.replicate 32 3⟩⟩
      ⟨1, false, ⟨List.replicate 32 2, List.replicate 32 3⟩⟩ = true :=
  onetimekey_pickle_roundtrip ⟨1, false, ⟨List.replicate 32 2, List.replicate 32 3⟩⟩
    (by decide) (by simp) (by simp)

/-- C10: `Curve25519KeyPair.UnpickleLibOlm` always sets the private-key
field to the 32 bytes it reads; unpickling the pickle of a public-key-only
pair therefore yields a private key of 32 zero bytes, which is not `Equal`
to the original absent (empty) private key. -/
theorem keypair_unpickle_private_always_set :
    (∀ value res n, Curve25519KeyPair.UnpickleLibOlm value = .ok (res, n) →
      res.PrivateKey.length = 32) ∧
    (∀ pub : List Nat, pub.length = 32 →
      Curve25519KeyPair.UnpickleLibOlm
          (Curve25519KeyPair.PickleLibOlm ⟨[], pub⟩ []) =
        .ok (⟨List.replicate 32 0, pub⟩, 64) ∧
      Curve25519PrivateKey.Equal (List.replicate 32 0) [] = false) := by
  constructor
  · intro value res n h
    unfold Curve25519KeyPair.UnpickleLibOlm at h
    cases hu : Curve25519PublicKey.UnpickleLibOlm value with
    | error e => simp only [hu] at h; simp at h
    | ok pr =>
      obtain ⟨pubv, readv⟩ := pr
      simp only [hu] at h
      cases hu2 : UnpickleBytes (value.drop readv) Curve25519PrivateKeyLength with
      | error e => simp only [hu2] at h; simp at h
      | ok pr2 =>
        obtain ⟨privv, readpv⟩ := pr2
        simp only [hu2, Except.ok.injEq, Prod.mk.injEq] at h
        obtain ⟨h1, -⟩ := h
        unfold UnpickleBytes at hu2
        by_cases hc : (value.drop readv).length < Curve25519PrivateKeyLength
        · rw [if_pos hc] at hu2; cases hu2
        · rw [if_neg hc] at hu2
          simp only [Except.ok.injEq, Prod.mk.injEq] at hu2
          obtain ⟨hpr, -⟩ := hu2
          rw [← h1, ← hpr]
          show (List.take Curve25519PrivateKeyLength (value.drop readv)).length = 32
          simp only [List.length_take, Curve25519PrivateKeyLength] at hc ⊢
          omega
  · intro pub hpub
    refine ⟨?_, by decide⟩
    have hpickle : Curve25519KeyPair.PickleLibOlm ⟨[], pub⟩ [] =
        pub ++ (List.replicate 32 0 ++ []) := by
      simp [Curve25519KeyPair.PickleLibOlm, Curve25519PublicKey.PickleLibOlm,
        encoderWrite, encoderWriteEmptyBytes, Curve25519PublicKeyLength,
        Curve25519PrivateKeyLength, hpub]
    rw [hpickle, keypair_unpickle_of_append _ _ _ hpub (by simp)]

theorem c10_witness :
    Curve25519KeyPair.UnpickleLibOlm
        (Curve25519KeyPair.PickleLibOlm ⟨[], List.replicate 32 7⟩ []) =
      .ok (⟨List.replicate 32 0, List.replicate 32 7⟩, 64) ∧
    Curve25519PrivateKey.Equal (List.replicate 32 0) [] = false :=
  keypair_unpickle_private_always_set.2 (List.replicate 32 7) (by simp)

/- ---------------------------------------------------------------------
Theorems about key derivation and MAC verification.
--------------------------------------------------------------------- -/

theorem deriveAESKeys_ok
    (hkdf : List Nat → Option (List Nat) → List Nat → List Nat)
    (kdfInfo key : List Nat)
    (h80 : 80 ≤ (hkdf key none kdfInfo).length) :
    deriveAESKeys hkdf kdfInfo key = .ok
      ⟨(hkdf key none kdfInfo).take 32,
       ((hkdf key none kdfInfo).drop 32).take 32,
       ((hkdf key none kdfInfo).drop 64).take 16⟩ := by
  simp only [deriveAESKeys, readFull, if_pos h80]
  simp only [List.take_take, List.drop_take]
  norm_num

/-- C1: for every master secret and kdf-info context, `deriveAESKeys`
reads exactly an 80-byte stream from HKDF-SHA256 with an empty salt and
splits it in fixed order into cipherKey = bytes 0-31, macKey = bytes
32-63, iv = bytes 64-79; the result depends on no byte of the stream
beyond the first 80. -/
theorem deriveAESKeys_contract
    (hkdf : List Nat → Option (List Nat) → List Nat → List Nat)
    (kdfInfo key : List Nat)
    (h80 : 80 ≤ (hkdf key none kdfInfo).length) :
    deriveAESKeys hkdf kdfInfo key = .ok
      ⟨(hkdf key none kdfInfo).take 32,
       ((hkdf key none kdfInfo).drop 32).take 32,
       ((hkdf key none kdfInfo).drop 64).take 16⟩ ∧
    ∀ hkdf2 : List Nat → Option (List Nat) → List Nat → List Nat,
      (hkdf key none kdfInfo).take 80 = (hkdf2 key none kdfInfo).take 80 →
      deriveAESKeys hkdf kdfInfo key = deriveAESKeys hkdf2 kdfInfo key := by
  constructor
  · exact deriveAESKeys_ok hkdf kdfInfo key h80
  · intro hkdf2 heq
    have hlen : min 80 (hkdf key none kdfInfo).length =
        min 80 (hkdf2 key none kdfInfo).length := by
      rw [← List.length_take, ← List.length_take, heq]
    simp only [deriveAESKeys, readFull]
    by_cases hc : 80 ≤ (hkdf key none kdfInfo).length
    · have hc2 : 80 ≤ (hkdf2 key none kdfInfo).length := by omega
      rw [if_pos hc, if_pos hc2, heq]
    · have hc2 : ¬ 80 ≤ (hkdf2 key none kdfInfo).length := by omega
      rw [if_neg hc, if_neg hc2]

theorem c1_witness :
    deriveAESKeys (fun _ _ _ => List.range 80) [] [] = .ok
      ⟨(List.range 80).take 32, ((List.range 80).drop 32).take 32,
       ((List.range 80).drop 64).take 16⟩ ∧
    deriveAESKeys (fun _ _ _ => List.range 80) [] [] =
      deriveAESKeys (fun _ _ _ => List.range 100) [] [] :=
  ⟨(deriveAESKeys_contract (fun _ _ _ => List.range 80) [] [] (by simp)).1,
   (deriveAESKeys_contract (fun _ _ _ => List.range 80) [] [] (by simp)).2
     (fun _ _ _ => List.range 100) (by simp [List.take_range])⟩

/-- C5: verification compares only the first `len(givenTag)` bytes of the
recomputed tag, so any prefix (length `n ≤ 32`, the native HMAC-SHA256 tag
length) of the genuine tag verifies as `(true, nil)`. -/
theorem verify_accepts_truncated_tag
    (hkdf : List Nat → Option (List Nat) → List Nat → List Nat)
    (hmac : List Nat → List Nat → List Nat) (c : AESSHA256)
    (key message : List Nat) (n : Nat)
    (hhm : ∀ k m, (hmac k m).length = 32)
    (hn : n ≤ 32) :
    ∀ tag, AESSHA256.MAC hkdf hmac c key message = .ok tag →
      AESSHA256.Verify hkdf hmac c key message (tag.take n) = .ok true := by
  intro tag htag
  have htlen : tag.length = 32 := by
    unfold AESSHA256.MAC at htag
    cases hd : deriveAESKeys hkdf c.kdfInfo key with
    | error e => simp only [hd] at htag; simp at htag
    | ok keys =>
      simp only [hd, Except.ok.injEq] at htag
      rw [← htag]
      exact hhm keys.hmacKey message
  have hglen : (tag.take n).length = n := by simp [List.length_take]; omega
  simp only [AESSHA256.Verify, htag]
  rw [if_pos (by rw [hglen, htlen]; omega), hglen]
  simp [bytesEqual]

theorem c5_witness :
    AESSHA256.Verify (fun _ _ _ => List.range 80) (fun _ _ => List.replicate 32 9)
      ⟨[]⟩ [] [] ((List.replicate 32 9).take 5) = .ok true :=
  verify_accepts_truncated_tag (fun _ _ _ => List.range 80)
    (fun _ _ => List.replicate 32 9) ⟨[]⟩ [] [] 5
    (fun _ _ => by simp) (by omega) (List.replicate 32 9) rfl

/-- C9: a given tag longer than the native 32-byte HMAC-SHA256 output
makes `AESSHA256.Verify` panic on the slice expression
`mac[:len(givenMAC)]` instead of returning false or an error; for tags of
at most 32 bytes (and a successful derivation) it returns an ordinary
boolean. -/
theorem verify_panics_on_long_tag
    (hkdf : List Nat → Option (List Nat) → List Nat → List Nat)
    (hmac : List Nat → List Nat → List Nat) (c : AESSHA256)
    (key message : List Nat)
    (hhm : ∀ k m, (hmac k m).length = 32)
    (h80 : 80 ≤ (hkdf key none c.kdfInfo).length) :
    (∀ givenMAC : List Nat, 32 < givenMAC.length →
      AESSHA256.Verify hkdf hmac c key message givenMAC = .panicked) ∧
    (∀ givenMAC : List Nat, givenMAC.length ≤ 32 →
      ∃ b, AESSHA256.Verify hkdf hmac c key message givenMAC = .ok b) := by
  have hmacOk : ∀ givenMAC : List Nat, AESSHA256.Verify hkdf hmac c key message givenMAC =
      (if givenMAC.length ≤ 32 then
        .ok (bytesEqual givenMAC
          ((hmac (((hkdf key none c.kdfInfo).drop 32).take 32) message).take givenMAC.length))
      else .panicked) := by
    intro givenMAC
    unfold AESSHA256.Verify AESSHA256.MAC
    rw [deriveAESKeys_ok hkdf c.kdfInfo key h80]
    simp only [hhm]
  constructor
  · intro givenMAC hlong
    rw [hmacOk givenMAC, if_neg (by omega)]
  · intro givenMAC hshort
    rw [hmacOk givenMAC, if_pos hshort]
    exact ⟨_, rfl⟩

theorem c9_witness :
    AESSHA256.Verify (fun _ _ _ => List.range 80) (fun _ _ => List.replicate 32 9)
      ⟨[]⟩ [] [] (List.replicate 33 0) = .panicked ∧
    ∃ b, AESSHA256.Verify (fun _ _ _ => List.range 80) (fun _ _ => List.replicate 32 9)
      ⟨[]⟩ [] [] (List.replicate 2 0) = .ok b :=
  ⟨(verify_panics_on_long_tag (fun _ _ _ => List.range 80)
      (fun _ _ => List.replicate 32 9) ⟨[]⟩ [] []
      (fun _ _ => by simp) (by simp)).1 (List.replicate 33 0) (by simp),
   (verify_panics_on_long_tag (fun _ _ _ => List.range 80)
      (fun _ _ => List.replicate 32 9) ⟨[]⟩ [] []
      (fun _ _ => by simp) (by simp)).2 (List.replicate 2 0) (by simp)⟩

/- ---------------------------------------------------------------------
Cipher round trip (C4).
--------------------------------------------------------------------- -/

theorem zipXor_length (a b : List Nat) : (zipXor a b).length = min a.length b.length := by
  simp [zipXor]

theorem zipXor_zipXor (a : List Nat) : ∀ b : List Nat, a.length = b.length →
    zipXor a (zipXor a b) = b := by
  induction a with
  | nil =>
    intro b h
    cases b with
    | nil => rfl
    | cons y ys => simp at h
  | cons x xs ih =>
    intro b h
    cases b with
    | nil => simp at h
    | cons y ys =>
      have h' : xs.length = ys.length := by simp at h; omega
      have hx : x ^^^ (x ^^^ y) = y := by
        rw [← Nat.xor_assoc, Nat.xor_self, Nat.zero_xor]
      show (x ^^^ (x ^^^ y)) :: zipXor xs (zipXor xs ys) = y :: ys
      rw [hx, ih ys h']

theorem chunksAux_flatten (fuel : Nat) : ∀ l : List Nat, l.length ≤ fuel →
    16 ∣ l.length → (chunksAux fuel l).flatten = l := by
  induction fuel with
  | zero =>
    intro l hl _
    have : l = [] := List.eq_nil_of_length_eq_zero (Nat.le_zero.mp hl)
    simp [this, chunksAux]
  | succ f ih =>
    intro l hl hdvd
    by_cases hnil : l = []
    · simp [chunksAux, hnil]
    · have hpos : 0 < l.length := List.length_pos.mpr hnil
      have h16 : 16 ≤ l.length := Nat.le_of_dvd hpos hdvd
      simp only [chunksAux, if_neg hnil, List.flatten_cons]
      rw [ih (l.drop 16) (by simp; omega)
        (by simpa using Nat.dvd_sub' hdvd (dvd_refl 16))]
      exact List.take_append_drop 16 l

theorem chunksAux_blocks_len (fuel : Nat) : ∀ l : List Nat, l.length ≤ fuel →
    16 ∣ l.length → ∀ b ∈ chunksAux fuel l, b.length = 16 := by
  induction fuel with
  | zero => intro l _ _ b hb; simp [chunksAux] at hb
  | succ f ih =>
    intro l hl hdvd b hb
    by_cases hnil : l = []
    · simp [chunksAux, hnil] at hb
    · have hpos : 0 < l.length := List.length_pos.mpr hnil
      have h16 : 16 ≤ l.length := Nat.le_of_dvd hpos hdvd
      simp only [chunksAux, if_neg hnil, List.mem_cons] at hb
      rcases hb with rfl | hb
      · simp [List.length_take]; omega
      · exact ih (l.drop 16) (by simp; omega)
          (by simpa using Nat.dvd_sub' hdvd (dvd_refl 16)) b hb

theorem chunksAux_of_flatten (bs : List (List Nat)) : ∀ fuel : Nat,
    (∀ b ∈ bs, b.length = 16) → bs.flatten.length ≤ fuel →
    chunksAux fuel bs.flatten = bs := by
  induction bs with
  | nil => intro fuel _ _; cases fuel <;> simp [chunksAux]
  | cons b bs ih =>
    intro fuel hall hlen
    have hb : b.length = 16 := hall b (by simp)
    simp only [List.flatten_cons] at hlen ⊢
    have hlen2 : (b ++ bs.flatten).length = 16 + bs.flatten.length := by
      rw [List.length_append, hb]
    have hlen' : 16 + bs.flatten.length ≤ fuel := by omega
    obtain ⟨f, rfl⟩ : ∃ f, fuel = f + 1 := ⟨fuel - 1, by omega⟩
    have hne : b ++ bs.flatten ≠ [] := by
      intro hh
      have := congrArg List.length hh
      simp [hb] at this
    simp only [chunksAux, if_neg hne, List.take_left' hb, List.drop_left' hb]
    rw [ih f (fun x hx => hall x (by simp [hx])) (by omega)]

theorem flatten_len_dvd (bs : List (List Nat)) (h : ∀ b ∈ bs, b.length = 16) :
    16 ∣ bs.flatten.length := by
  induction bs with
  | nil => simp
  | cons b bs ih =>
    simp only [List.flatten_cons, List.length_append, h b (by simp)]
    exact Nat.dvd_add ⟨1, rfl⟩ (ih fun x hx => h x (by simp [hx]))

theorem cbcEncBlocks_len (encB : List Nat → List Nat)
    (hlen : ∀ b, b.length = 16 → (encB b).length = 16) :
    ∀ (bs : List (List Nat)) (prev : List Nat), prev.length = 16 →
    (∀ b ∈ bs, b.length = 16) →
    ∀ cb ∈ cbcEncBlocks encB prev bs, cb.length = 16 := by
  intro bs
  induction bs with
  | nil => intro prev _ _ cb hcb; simp [cbcEncBlocks] at hcb
  | cons b bs ih =>
    intro prev hprev hall cb hcb
    have hb : b.length = 16 := hall b (by simp)
    have hc : (encB (zipXor prev b)).length = 16 :=
      hlen _ (by simp [zipXor_length, hprev, hb])
    simp only [cbcEncBlocks, List.mem_cons] at hcb
    rcases hcb with rfl | hcb
    · exact hc
    · exact ih (encB (zipXor prev b)) hc (fun x hx => hall x (by simp [hx])) cb hcb

theorem cbcDec_cbcEnc (encB decB : List Nat → List Nat)
    (hinv : ∀ b, b.length = 16 → decB (encB b) = b)
    (hlen : ∀ b, b.length = 16 → (encB b).length = 16) :
    ∀ (bs : List (List Nat)) (prev : List Nat), prev.length = 16 →
    (∀ b ∈ bs, b.length = 16) →
    cbcDecBlocks decB prev (cbcEncBlocks encB prev bs) = bs := by
  intro bs
  induction bs with
  | nil => intro prev _ _; rfl
  | cons b bs ih =>
    intro prev hprev hall
    have hb : b.length = 16 := hall b (by simp)
    have hxl : (zipXor prev b).length = 16 := by simp [zipXor_length, hprev, hb]
    simp only [cbcEncBlocks, cbcDecBlocks]
    rw [hinv _ hxl, zipXor_zipXor prev b (by rw [hprev, hb]),
      ih (encB (zipXor prev b)) (hlen _ hxl) (fun x hx => hall x (by simp [hx]))]

theorem pkcs7pad_length_dvd (p : List Nat) : 16 ∣ (pkcs7pad p).length := by
  simp [pkcs7pad]; omega

theorem pkcs7unpad_pkcs7pad (p : List Nat) : pkcs7unpad (pkcs7pad p) = .ok p := by
  have hk1 : 1 ≤ 16 - p.length % 16 := by omega
  have hk16 : 16 - p.length % 16 ≤ 16 := by omega
  set k := 16 - p.length % 16 with hk
  have hrep : List.replicate k k = List.replicate (k - 1) k ++ [k] := by
    obtain ⟨j, hj⟩ : ∃ j, k = j + 1 := ⟨k - 1, by omega⟩
    rw [hj]
    simp [List.replicate_succ']
  have hlast : (pkcs7pad p).getLast? = some k := by
    rw [pkcs7pad, ← hk, hrep, ← List.append_assoc, List.getLast?_concat]
  have hlen : (pkcs7pad p).length = p.length + k := by simp [pkcs7pad, ← hk]
  have hsub : (pkcs7pad p).length - k = p.length := by omega
  have hdrop : (pkcs7pad p).drop p.length = List.replicate k k := by
    rw [pkcs7pad, ← hk]
    exact List.drop_left p (List.replicate k k)
  have htake : (pkcs7pad p).take p.length = p := by
    rw [pkcs7pad, ← hk]
    exact List.take_left p (List.replicate k k)
  simp only [pkcs7unpad, hlast, hsub, hdrop, htake]
  rw [if_pos ⟨hk1, hk16, by omega, by simp⟩]

/-- C4: for every master secret and plaintext, decryption with the same
cipher instance inverts encryption: `Decrypt(s, Encrypt(s, p))` succeeds
and returns `p` (given a key-derivation stream of at least 80 bytes and an
AES block permutation on 16-byte blocks). -/
theorem aessha256_decrypt_encrypt
    (hkdf : List Nat → Option (List Nat) → List Nat → List Nat)
    (encB decB : List Nat → List Nat → List Nat)
    (c : AESSHA256) (key plaintext : List Nat)
    (h80 : 80 ≤ (hkdf key none c.kdfInfo).length)
    (hinv : ∀ k b, b.length = 16 → decB k (encB k b) = b)
    (hblen : ∀ k b, b.length = 16 → (encB k b).length = 16) :
    ∀ ct, AESSHA256.Encrypt hkdf encB c key plaintext = .ok ct →
      AESSHA256.Decrypt hkdf decB c key ct = .ok plaintext := by
  intro ct hct
  have hkeys := deriveAESKeys_ok hkdf c.kdfInfo key h80
  set s := hkdf key none c.kdfInfo with hs
  have hkeylen : (s.take 32).length = 32 := by simp [List.length_take]; omega
  have hivlen : ((s.drop 64).take 16).length = 16 := by
    simp [List.length_take, List.length_drop]; omega
  have hkcond : (s.take 32).length = 16 ∨ (s.take 32).length = 24 ∨
      (s.take 32).length = 32 := Or.inr (Or.inr hkeylen)
  simp only [AESSHA256.Encrypt, hkeys, aescbcEncrypt] at hct
  rw [if_neg (not_not_intro hkcond), if_neg (by simp [hivlen])] at hct
  simp only [Except.ok.injEq] at hct
  subst hct
  have hpadblocks : ∀ b ∈ chunks (pkcs7pad plaintext), b.length = 16 :=
    chunksAux_blocks_len (pkcs7pad plaintext).length (pkcs7pad plaintext)
      le_rfl (pkcs7pad_length_dvd plaintext)
  have hencblocks : ∀ cb ∈ cbcEncBlocks (encB (s.take 32)) ((s.drop 64).take 16)
      (chunks (pkcs7pad plaintext)), cb.length = 16 :=
    cbcEncBlocks_len (encB (s.take 32)) (hblen (s.take 32)) _ _ hivlen hpadblocks
  have hdvd := flatten_len_dvd _ hencblocks
  simp only [AESSHA256.Decrypt, hkeys, aescbcDecrypt]
  rw [if_neg (not_not_intro hkcond), if_neg (by simp [hivlen]),
    if_neg (not_not_intro hdvd)]
  rw [show chunks (cbcEncBlocks (encB (s.take 32)) ((s.drop 64).take 16)
      (chunks (pkcs7pad plaintext))).flatten = cbcEncBlocks (encB (s.take 32))
      ((s.drop 64).take 16) (chunks (pkcs7pad plaintext)) from
    chunksAux_of_flatten _ _ hencblocks le_rfl]
  rw [cbcDec_cbcEnc (encB (s.take 32)) (decB (s.take 32)) (hinv (s.take 32))
    (hblen (s.take 32)) _ _ hivlen hpadblocks]
  rw [show (chunks (pkcs7pad plaintext)).flatten = pkcs7pad plaintext from
    chunksAux_flatten _ _ le_rfl (pkcs7pad_length_dvd plaintext)]
  exact pkcs7unpad_pkcs7pad plaintext

theorem c4_witness :
    AESSHA256.Decrypt (fun _ _ _ => List.range 80) (fun _ b => b.reverse) ⟨[]⟩ []
      [66, 67, 64, 65, 70, 71, 68, 69, 74, 75, 72, 73, 78, 65, 67, 65] =
      .ok [1, 2, 3] :=
  aessha256_decrypt_encrypt (fun _ _ _ => List.range 80) (fun _ b => b.reverse)
    (fun _ b => b.reverse) ⟨[]⟩ [] [1, 2, 3] (by simp)
    (fun k b hb => by simp) (fun k b hb => by simp [hb])
    [66, 67, 64, 65, 70, 71, 68, 69, 74, 75, 72, 73, 78, 65, 67, 65] rfl

/- ---------------------------------------------------------------------
Key agreement (C6, C7).
--------------------------------------------------------------------- -/

theorem encodeUCoordinateAux_length (fuel : Nat) :
    ∀ x : Nat, (encodeUCoordinateAux fuel x).length = fuel := by
  induction fuel with
  | zero => intro x; rfl
  | succ f ih => intro x; simp [encodeUCoordinateAux, ih]

theorem encodeUCoordinate_length (x : Nat) : (encodeUCoordinate x).length = 32 :=
  encodeUCoordinateAux_length 32 (x % p25519)

set_option maxRecDepth 100000 in
/-- C6 counterexample: the all-zero 32-byte peer public key is a low-order
point, and the shared-secret call fails on it with the low-order-point
error of `curve25519.X25519` — refuting that the call does not fail for
any 32-byte peer public key. -/
theorem sharedsecret_low_order_counterexample :
    Curve25519PrivateKey.SharedSecret (List.replicate 32 1) (List.replicate 32 0) =
      .error GoErr.lowOrderPoint := rfl

/-- C6 (amended): `SharedSecret` performs X25519 scalar multiplication;
beyond the 32-byte length checks the only validation of the peer public
key is the low-order-point rejection inherited from `curve25519.X25519`:
the call errors exactly when the computed shared secret encodes to
all-zero bytes (as for low-order peer points such as the all-zero one),
and otherwise returns 32 raw bytes. -/
theorem sharedsecret_error_iff_zero_output (priv pub : List Nat)
    (hpriv : priv.length = 32) (hpub : pub.length = 32) :
    (Curve25519PrivateKey.SharedSecret priv pub = .error GoErr.lowOrderPoint ↔
      (encodeUCoordinate (montgomeryLadder (clampScalar priv)
        (decodeUCoordinate pub))).all (fun b => b == 0) = true) ∧
    ∀ out, Curve25519PrivateKey.SharedSecret priv pub = .ok out →
      out.length = 32 := by
  have hred : Curve25519PrivateKey.SharedSecret priv pub =
      (if (encodeUCoordinate (montgomeryLadder (clampScalar priv)
          (decodeUCoordinate pub))).all (fun b => b == 0)
       then .error GoErr.lowOrderPoint
       else .ok (encodeUCoordinate (montgomeryLadder (clampScalar priv)
          (decodeUCoordinate pub)))) := by
    simp [Curve25519PrivateKey.SharedSecret, curve25519X25519, hpriv, hpub]
  constructor
  · rw [hred]
    by_cases hz : (encodeUCoordinate (montgomeryLadder (clampScalar priv)
        (decodeUCoordinate pub))).all (fun b => b == 0) = true
    · simp [hz]
    · simp [hz]
  · intro out hout
    rw [hred] at hout
    by_cases hz : (encodeUCoordinate (montgomeryLadder (clampScalar priv)
        (decodeUCoordinate pub))).all (fun b => b == 0) = true
    · rw [if_pos hz] at hout; cases hout
    · rw [if_neg hz] at hout
      simp only [Except.ok.injEq] at hout
      rw [← hout]
      exact encodeUCoordinate_length _

theorem c6_amended_witness :
    (Curve25519PrivateKey.SharedSecret (List.replicate 32 1) basepointBytes =
        .error GoErr.lowOrderPoint ↔
      (encodeUCoordinate (montgomeryLadder (clampScalar (List.replicate 32 1))
        (decodeUCoordinate basepointBytes))).all (fun b => b == 0) = true) ∧
    ∀ out, Curve25519PrivateKey.SharedSecret (List.replicate 32 1) basepointBytes =
        .ok out → out.length = 32 :=
  sharedsecret_error_iff_zero_output (List.replicate 32 1) basepointBytes
    (by simp) (by simp [basepointBytes])

/-- C7: Diffie-Hellman symmetry of the shared secret, over the spec model
of X25519 as a clamped scalar multiplication on the x-line: for any scalar
action satisfying the composition law, and any two key pairs whose public
halves were derived from their private scalars via the base point,
exchanging the roles of the two pairs yields the same shared secret. -/
theorem x25519_shared_secret_symm {α : Type} (smul : Nat → α → α)
    (enc : α → List Nat) (dec : List Nat → α)
    (hsm : ∀ m n x, smul m (smul n x) = smul (m * n) x)
    (hde : ∀ x, dec (enc x) = x)
    (henc : ∀ x, (enc x).length = 32)
    (privA privB pubA pubB : List Nat)
    (hpa : x25519Spec smul enc dec privA basepointBytes = .ok pubA)
    (hpb : x25519Spec smul enc dec privB basepointBytes = .ok pubB) :
    x25519Spec smul enc dec privA pubB = x25519Spec smul enc dec privB pubA := by
  have hbase32 : ¬ (basepointBytes.length ≠ 32) := by simp [basepointBytes]
  simp only [x25519Spec] at hpa hpb
  by_cases hA : privA.length ≠ 32
  · rw [if_pos hA] at hpa; cases hpa
  by_cases hB : privB.length ≠ 32
  · rw [if_pos hB] at hpb; cases hpb
  rw [if_neg hA, if_neg hbase32] at hpa
  rw [if_neg hB, if_neg hbase32] at hpb
  by_cases hzA : (enc (smul (clampScalar privA) (dec basepointBytes))).all
      (fun b => b == 0) = true
  · rw [if_pos hzA] at hpa; cases hpa
  by_cases hzB : (enc (smul (clampScalar privB) (dec basepointBytes))).all
      (fun b => b == 0) = true
  · rw [if_pos hzB] at hpb; cases hpb
  rw [if_neg hzA] at hpa
  rw [if_neg hzB] at hpb
  simp only [Except.ok.injEq] at hpa hpb
  subst hpa
  subst hpb
  have hpubB : ¬ ((enc (smul (clampScalar privB) (dec basepointBytes))).length ≠ 32) := by
    simp [henc]
  have hpubA : ¬ ((enc (smul (clampScalar privA) (dec basepointBytes))).length ≠ 32) := by
    simp [henc]
  have hout : smul (clampScalar privA)
        (dec (enc (smul (clampScalar privB) (dec basepointBytes)))) =
      smul (clampScalar privB)
        (dec (enc (smul (clampScalar privA) (dec basepointBytes)))) := by
    rw [hde, hde, hsm, hsm, Nat.mul_comm]
  simp only [x25519Spec]
  rw [if_neg hA, if_neg hpubB, if_neg hB, if_neg hpubA, hout]

theorem c7_witness :
    x25519Spec (fun m x => m * x) (fun x => x :: List.replicate 31 0)
      (fun l => l.headD 0) (List.replicate 32 0)
      ((clampScalar (List.replicate 32 1) * 9) :: List.replicate 31 0) =
    x25519Spec (fun m x => m * x) (fun x => x :: List.replicate 31 0)
      (fun l => l.headD 0) (List.replicate 32 1)
      ((clampScalar (List.replicate 32 0) * 9) :: List.replicate 31 0) :=
  x25519_shared_secret_symm (fun m x => m * x) (fun x => x :: List.replicate 31 0)
    (fun l => l.headD 0)
    (fun m n x => (Nat.mul_assoc m n x).symm)
    (fun x => rfl) (fun x => by simp)
    (List.replicate 32 0) (List.replicate 32 1) _ _ rfl rfl

end Goolm
